import Mathlib

/-!
Verification of the hub-identification pipeline of Demeter et al. 2023
(Identify_Hubs.py, Hub_Density_Map.py, Create_Hub_Profiles.py).

The Python sources are shallowly embedded: numpy float vectors become
functions into ℚ (or ℝ where transcendental functions appear), float NaN is
modelled by the `none` value of `Option`, and `sys.exit` failures become
`Except.error`.  Each definition mirrors one numpy/scipy/bct expression of
the source; library calls (scipy.stats.percentileofscore with its default
rank method, bct.participation_coef, bct.degrees_und, np.percentile's
linear interpolation, np.nanmean, np.nan_to_num) are embedded from the
published implementations the scripts call.
-/
namespace DemeterHubs

/-! ### scipy.stats.percentileofscore, default method
`left` counts strict minorants, `right` counts weak minorants; since every
score that is queried below is itself drawn from the list, the `right > left`
correction of the library always fires there. -/
/-- Embedding of scipy.stats.percentileofscore(a, score) with the default
rank method: (left + right + (1 if right > left else 0)) * 50 / n. -/
def percentileofscore (a : List ℚ) (score : ℚ) : ℚ :=
  ((a.countP (fun x => decide (x < score)) : ℚ) +
      (a.countP (fun x => decide (x ≤ score)) : ℚ) +
      (if a.countP (fun x => decide (x < score)) < a.countP (fun x => decide (x ≤ score))
        then 1 else 0)) * 50 / (a.length : ℚ)

/-! ### label_hubs (Identify_Hubs.py lines 287-308)
The averaged PC vector is loaded from the per-subject file; here it is the
function `avg`.  The file stores the entries in index order, which is the
list `(List.finRange n).map avg`. -/
/-- Embedding of line 294: re-percentile the averaged vector against itself
(np.asarray of stats.percentileofscore over each entry). -/
def final_avg_perc_vect {n : ℕ} (avg : Fin n → ℚ) (i : Fin n) : ℚ :=
  percentileofscore ((List.finRange n).map avg) (avg i)

/-- Embedding of line 295: np.where(final_avg_perc_vect less than 80, 0, final_avg_perc_vect). -/
def cens_avg_vect {n : ℕ} (avg : Fin n → ℚ) (i : Fin n) : ℚ :=
  if final_avg_perc_vect avg i < 80 then 0 else final_avg_perc_vect avg i

/-- Embedding of lines 296-299: np.nonzero of the censored vector (indices in
ascending order), each incremented by 1 to convert to 1-indexed parcel
numbers; this list is what gets persisted to the HUB_INDICES file. -/
def hub_list {n : ℕ} (avg : Fin n → ℚ) : List ℕ :=
  ((List.finRange n).filter (fun i => decide (cens_avg_vect avg i ≠ 0))).map
    (fun i => i.val + 1)

/-! ### run_pc_steps, per-threshold body (Identify_Hubs.py lines 213-262)
`W` is the thresholded strict upper-triangular matrix `pc_upper_mat`
(np.triu(bct.threshold_proportional(zmat, thr), 1)) and `ci` the affiliation
vector loaded for the same threshold; both are taken as inputs here since the
claims quantify over them.  Float NaN is `none`. -/
/-- Embedding of line 235: Ko = np.sum(W, axis=1), the (out) degree. -/
def Ko {n : ℕ} (W : Fin n → Fin n → ℚ) (v : Fin n) : ℚ :=
  ∑ j, W v j

/-- Rank of a value inside a finite set of naturals: 1 + the number of
strictly smaller elements.  This is the value np.unique(ci,
return_inverse=True) assigns (plus the ci += 1 of line 233). -/
def rankOf (s : Finset ℕ) (x : ℕ) : ℕ :=
  (s.filter (fun y => y < x)).card + 1

/-- Embedding of lines 232-233: _, ci = np.unique(ci, return_inverse=True);
ci += 1.  Each label is replaced by its 1-based rank among the distinct
labels present. -/
def uniqueInv {n : ℕ} (ci : Fin n → ℕ) (j : Fin n) : ℕ :=
  rankOf (Finset.image ci Finset.univ) (ci j)

/-- np.max of the remapped affiliation vector (line 238's loop bound). -/
def maxCi {n : ℕ} (ci : Fin n → ℕ) : ℕ :=
  Finset.univ.sup (uniqueInv ci)

/-- Embedding of lines 236-239: Gc = (W != 0) ⬝ diag(ci); for each community
label i from 1 to max, Kc2 accumulates the square of the row sums of
W * (Gc == i).  An entry contributes to label i iff it is nonzero and its
column's remapped affiliation is i. -/
def Kc2 {n : ℕ} (W : Fin n → Fin n → ℚ) (ci : Fin n → ℕ) (v : Fin n) : ℚ :=
  ∑ c ∈ Finset.Icc 1 (maxCi ci),
    (∑ j ∈ Finset.univ.filter (fun j => W v j ≠ 0 ∧ uniqueInv ci j = c), W v j) ^ 2

/-- Embedding of lines 240-241, the hand-written participation coefficient
that keeps NaN: P = 1 - Kc2 / Ko².  In float arithmetic a node with no
incident weight hits 0/0 = NaN; that is the `none` branch.  (The other
non-finite branch, Ko = 0 with Kc2 nonzero, would be a float infinity, not a
NaN, and is likewise only ever inspected downstream through np.isnan, which
is false for it; it cannot arise from the all-zero rows the claims are
about.) -/
def PC_wnans {n : ℕ} (W : Fin n → Fin n → ℚ) (ci : Fin n → ℕ) (v : Fin n) :
    Option ℚ :=
  if Ko W v = 0 ∧ Kc2 W ci v = 0 then none
  else some (1 - Kc2 W ci v / (Ko W v) ^ 2)

/-- Embedding of bct.participation_coef (line 225): identical formula, but
the library ends with P[np.where(np.logical_not(Ko))] = 0, zero-filling the
zero-degree nodes instead of keeping NaN. -/
def participation_coef {n : ℕ} (W : Fin n → Fin n → ℚ) (ci : Fin n → ℕ)
    (v : Fin n) : ℚ :=
  if Ko W v = 0 then 0 else 1 - Kc2 W ci v / (Ko W v) ^ 2

/-- The PC_nonans vector as a list in node order (the array percentileofscore
is ranked against at line 245). -/
def PC_nonans_list {n : ℕ} (W : Fin n → Fin n → ℚ) (ci : Fin n → ℕ) : List ℚ :=
  (List.finRange n).map (participation_coef W ci)

/-- Embedding of line 245: PC_percs, percentile-of-score of each node's
no-NaN coefficient against all of them. -/
def PC_percs {n : ℕ} (W : Fin n → Fin n → ℚ) (ci : Fin n → ℕ) (v : Fin n) : ℚ :=
  percentileofscore (PC_nonans_list W ci) (participation_coef W ci v)

/-- Embedding of bct.degrees_und (line 247): binarize the matrix and take
column sums, so the degree of v is the number of nonzero entries in column v. -/
def degrees_und {n : ℕ} (W : Fin n → Fin n → ℚ) (v : Fin n) : ℕ :=
  (Finset.univ.filter (fun u => W u v ≠ 0)).card

/-- Ascending sort used by np.percentile. -/
def sortAsc (l : List ℚ) : List ℚ :=
  l.insertionSort (fun a b => a ≤ b)

/-- Embedding of np.percentile(degs, 25) with the default linear
interpolation: with s the ascending sort and h = (len - 1) * 25/100, the
result is s[k] + (h - k) * (s[k+1] - s[k]) for k = floor h. -/
def npPercentile25 (l : List ℚ) : ℚ :=
  let s := sortAsc l
  let h : ℚ := ((l.length : ℚ) - 1) / 4
  let k : ℕ := (⌊h⌋).toNat
  s.getD k 0 + (h - (k : ℚ)) * (s.getD (k + 1) 0 - s.getD k 0)

/-- The degree distribution of the thresholded matrix as a list (line 247). -/
def degList {n : ℕ} (W : Fin n → Fin n → ℚ) : List ℚ :=
  (List.finRange n).map (fun v => (degrees_und W v : ℚ))

/-- Embedding of line 248: low = np.percentile(degs, 25). -/
def lowCut {n : ℕ} (W : Fin n → Fin n → ℚ) : ℚ :=
  npPercentile25 (degList W)

/-- Embedding of line 249: deg_mult = np.where(degs less than low, 0, 1). -/
def deg_mult {n : ℕ} (W : Fin n → Fin n → ℚ) (v : Fin n) : ℚ :=
  if (degrees_und W v : ℚ) < lowCut W then 0 else 1

/-- Embedding of line 250: elementwise product of the percentile vector with
the degree mask. -/
def deg_cens_PC_percs {n : ℕ} (W : Fin n → Fin n → ℚ) (ci : Fin n → ℕ)
    (v : Fin n) : ℚ :=
  PC_percs W ci v * deg_mult W v

/-- Embedding of lines 252-255: zero entries are converted to NaN, then the
NaN mask recorded from PC_wnans (line 243) is written back on top.  This is
the per-threshold vector persisted to the CENS_PC_PERC file (lines 257-262). -/
def cens_PC_perc_wnan {n : ℕ} (W : Fin n → Fin n → ℚ) (ci : Fin n → ℕ)
    (v : Fin n) : Option ℚ :=
  if PC_wnans W ci v = none then none
  else if deg_cens_PC_percs W ci v = 0 then none
  else some (deg_cens_PC_percs W ci v)

/-! ### run_pc_steps, averaging step (Identify_Hubs.py lines 265-283)
The 12 per-threshold persisted vectors are stacked and averaged with
np.nanmean along the threshold axis, then np.nan_to_num replaces a NaN
average (a node NaN at all 12 thresholds) by 0. -/
/-- Embedding of np.nanmean(allPC_percs_wnans, axis=0) at one node: mean of
the non-NaN entries, NaN when every entry is NaN. -/
def nanmeanAt {n : ℕ} (vs : Fin 12 → Fin n → Option ℚ) (v : Fin n) : Option ℚ :=
  let vals := (List.finRange 12).filterMap (fun t => vs t v)
  if vals.length = 0 then none else some (vals.sum / (vals.length : ℚ))

/-- Embedding of lines 274-275: avg_PC_perc = np.nan_to_num(np.nanmean(...)),
the vector persisted to the FINAL_AVG_PC_PERCENTAGE file. -/
def avg_PC_perc {n : ℕ} (vs : Fin 12 → Fin n → Option ℚ) (v : Fin n) : ℚ :=
  (nanmeanAt vs v).getD 0

/-! ### make_zmat (Identify_Hubs.py lines 117-122)
np.corrcoef is embedded over ℝ: the covariance matrix uses the default
ddof = 1 normalisation, and the correlation entry divides by the product of
the standard deviations.  A zero variance makes the float quotient 0/0 = NaN
(the covariance with a constant row is exactly 0), modelled as `none`.
np.arctanh is the real artanh, log((1+x)/(1-x))/2. -/
/-- Row mean of a timeseries row. -/
noncomputable def rowMean {m : ℕ} (x : Fin m → ℝ) : ℝ :=
  (∑ k, x k) / (m : ℝ)

/-- Embedding of np.cov with the default ddof = 1 used inside np.corrcoef. -/
noncomputable def cov {m : ℕ} (x y : Fin m → ℝ) : ℝ :=
  (∑ k, (x k - rowMean x) * (y k - rowMean y)) / ((m : ℝ) - 1)

/-- One entry of np.corrcoef: cov(x,y) / (sqrt var x * sqrt var y), NaN
(`none`) when either variance vanishes (constant row), since the float
computation then divides 0 by 0. -/
noncomputable def corrcoefEntry {m : ℕ} (x y : Fin m → ℝ) : Option ℝ :=
  if cov x x = 0 ∨ cov y y = 0 then none
  else some (cov x y / (Real.sqrt (cov x x) * Real.sqrt (cov y y)))

/-- Embedding of np.arctanh. -/
noncomputable def artanh (x : ℝ) : ℝ :=
  Real.log ((1 + x) / (1 - x)) / 2

/-- Embedding of make_zmat (lines 117-122): correlation matrix with the
diagonal zeroed, arctanh applied, then the diagonal reset to 1.  Zeroing the
diagonal and then arctanh leaves the off-diagonal entries as
arctanh of the correlation, and the diagonal ends up exactly 1. -/
noncomputable def make_zmat {n m : ℕ} (ts : Fin n → Fin m → ℝ) (i j : Fin n) :
    Option ℝ :=
  if i = j then some 1 else (corrcoefEntry (ts i) (ts j)).map artanh

/-! ### run_infomap, per-threshold NaN check (Identify_Hubs.py lines 145-152)
check_nan = np.isnan(np.sum(thresh_mat)); a float sum is NaN exactly when
some summand is NaN, so the fold below absorbs `none`. -/
/-- The sys.exit message of line 150. -/
def nanErrMsg : String := "NaN found. This is not right! Exiting..."

/-- Float addition in the NaN-aware model: NaN absorbs. -/
def optAdd : Option ℚ → Option ℚ → Option ℚ
  | some a, some b => some (a + b)
  | _, _ => none

/-- Embedding of np.sum(thresh_mat): fold float addition over all entries. -/
def npSumMat {N : ℕ} (M : Fin N → Fin N → Option ℚ) : Option ℚ :=
  (((List.finRange N).map (fun i => (List.finRange N).map (M i))).flatten).foldl
    optAdd (some 0)

/-- Embedding of lines 148-152: if np.isnan(np.sum(thresh_mat)) the subject
run is aborted via sys.exit, otherwise processing continues to the pajek /
infomap steps. -/
def runInfomapThreshStep {N : ℕ} (M : Fin N → Fin N → Option ℚ) :
    Except String Unit :=
  if (npSumMat M).isNone then Except.error nanErrMsg else Except.ok ()

/-! ### run_infomap, affiliation vector cleanup (Identify_Hubs.py lines 171-203)
A parsed .clu file is a list of (node id, community label) pairs.  Python's
sorted with key x[0] is a stable sort by node id; insertion sort by the same
key is also stable, so the two agree on every input.  The aff_vect file holds
one integer label per line; np.savetxt/np.loadtxt of small integers is exact,
so the file is modelled by the list of labels it holds. -/
/-- Embedding of line 191: s_tups = sorted(clu_tup, key=lambda x: x[0]). -/
def s_tups (clu : List (ℕ × ℕ)) : List (ℕ × ℕ) :=
  clu.insertionSort (fun a b => a.1 ≤ b.1)

/-- Embedding of lines 199-203: the aff_vect file, community labels only, in
sorted node order. -/
def writeAffVect (clu : List (ℕ × ℕ)) : List ℕ :=
  (s_tups clu).map Prod.snd

/-- Embedding of line 223: aff_vect = np.loadtxt(vect_text), reading the
persisted labels back in file order. -/
def loadAffVect (file : List ℕ) : List ℕ :=
  file

/-! ### Hub_Density_Map.py lines 67-106
The 333-key dictionary initialised to zero is the constant-zero function;
each hub index read from a file increments its key (lines 96-97), and the
output vector lists the counts for parcels 1..333 in order (lines 100-103). -/
/-- The hub_counts_dict of lines 67-87, all 333 keys initialised to 0. -/
def initCounts : ℕ → ℕ := fun _ => 0

/-- Embedding of lines 96-97 for one indices file: each listed parcel number
increments its dictionary entry. -/
def addFile (counts : ℕ → ℕ) (file : List ℕ) : ℕ → ℕ :=
  file.foldl (fun c h => Function.update c h (c h + 1)) counts

/-- Embedding of the loop of lines 89-97 over all hub-index files. -/
def hub_counts (files : List (List ℕ)) : ℕ → ℕ :=
  files.foldl addFile initCounts

/-- Embedding of lines 100-103: the_vect, the counts for parcel numbers
1..333 in ascending order (range(1, 334)). -/
def the_vect (files : List (List ℕ)) : List ℕ :=
  (List.range' 1 333).map (hub_counts files)

/-! ### Create_Hub_Profiles.py lines 87-151
The 13 zero-indexed network membership lists are transcribed verbatim from
lines 87-105 (the Python list named `none` is called `noneNet` here).  For
one hub, `conns` is the hub's row of the distance-censored z-matrix
(all_hub_conns, line 113); the loop of lines 133-138 removes the first value
equal to 1.0 from every network list containing one (Python list.remove,
i.e. List.erase) while counting the touched lists, and lines 139-142 abort
the whole run via sys.exit unless exactly one list was touched. -/
def aud : List ℕ :=
  [9,63,64,65,66,67,68,69,76,101,103,159,170,223,226,229,231,232,238,243,267,268,328,329]

def co : List ℕ :=
  [20,21,26,27,33,39,62,70,71,75,80,81,83,100,102,104,110,111,146,152,179,180,184,186,187,
    191,195,197,218,222,233,234,237,244,245,247,248,273,316,317]

def cp : List ℕ :=
  [11,88,92,172,253]

def dmn : List ℕ :=
  [0,3,5,24,25,43,93,113,115,116,125,126,144,145,149,150,151,153,155,156,161,164,183,185,
    199,219,224,256,258,277,278,289,314,315,320,321,322,323,324,325,330]

def da : List ℕ :=
  [40,41,42,48,50,51,54,73,86,87,90,91,94,99,105,106,109,112,154,188,198,202,207,210,235,
    249,251,252,261,265,270,274]

def fp : List ℕ :=
  [6,8,23,77,95,107,108,147,148,166,167,169,181,239,259,260,271,272,275,276,318,319,326,327]

def noneNet : List ℕ :=
  [10,17,18,72,114,117,118,119,120,121,122,123,124,127,128,132,133,134,141,143,158,171,177,
    178,279,280,281,282,283,284,285,286,287,288,290,291,295,296,299,300,301,302,303,304,305,311,313]

def ret : List ℕ :=
  [12,13,129,142,173,293,294,312]

def sal : List ℕ :=
  [28,82,182,246]

def ssmh : List ℕ :=
  [1,29,30,31,32,34,35,36,37,44,45,46,47,49,53,55,56,57,162,189,190,192,193,194,200,201,203,204,205,
    206,208,209,212,213,214,215,216,269]

def ssmm : List ℕ :=
  [2,38,52,58,163,196,211,217]

def va : List ℕ :=
  [22,59,60,61,74,78,79,84,85,157,160,220,221,225,227,228,230,236,240,241,242,331,332]

def vis : List ℕ :=
  [4,7,14,15,16,19,89,96,97,98,130,131,135,136,137,138,139,140,165,168,174,175,176,250,254,255,257,
    262,263,264,266,292,297,298,306,307,308,309,310]

/-- The net_conns list of lines 130-132, as membership lists. -/
def networks : List (List ℕ) :=
  [aud, co, cp, dmn, da, fp, noneNet, ret, sal, ssmh, ssmm, va, vis]

/-- Embedding of lines 117-132: the 13 per-network lists of one hub's
connectivity values. -/
def net_conns (conns : ℕ → ℚ) : List (List ℚ) :=
  networks.map (fun net => net.map conns)

/-- Embedding of the counter of lines 133-138: the number of network lists
containing the value 1.0 (each such list has list.remove(1.0) applied once,
so corr_removed is incremented once per touched list, not per occurrence). -/
def corr_removed (conns : ℕ → ℚ) : ℕ :=
  (net_conns conns).countP (fun nc => decide ((1:ℚ) ∈ nc))

/-- The state of the 13 lists after the removal loop: the first occurrence of
1.0 erased from every list that contains one. -/
def removedConns (conns : ℕ → ℚ) : List (List ℚ) :=
  (net_conns conns).map (fun nc => if (1:ℚ) ∈ nc then nc.erase 1 else nc)

/-- The sys.exit message of line 142. -/
def selfCorrErrMsg : String :=
  "Something went wrong removing the self-corr value. Exiting..."

/-- Embedding of lines 139-142: proceed with the removed lists only when
exactly one removal happened, otherwise abort the whole run. -/
def create_profiles_check (conns : ℕ → ℚ) : Except String (List (List ℚ)) :=
  if corr_removed conns = 1 then Except.ok (removedConns conns)
  else Except.error selfCorrErrMsg

/-- The counterexample row: value 1.0 at indices 9 and 63, which both belong
to the auditory network list, and 0 elsewhere. -/
def twoOnesRow : ℕ → ℚ :=
  fun i => if i = 9 ∨ i = 63 then 1 else 0

/-! ### Theorems -/

/-- C1: the Hub Labeler first re-percentiles the averaged PC vector against
itself, flags parcel i as a hub iff that re-percentiled score is at least 80
(boundary inclusive), and the persisted hub list is exactly the ascending
list of flagged 0-based indices each incremented by 1. -/
theorem c1_hub_labeler {n : ℕ} (avg : Fin n → ℚ) :
    hub_list avg =
      ((List.finRange n).filter
        (fun i => decide ((80:ℚ) ≤ final_avg_perc_vect avg i))).map
        (fun i => i.val + 1) ∧
    ∀ m : ℕ, m ∈ hub_list avg ↔
      ∃ i : Fin n, (80:ℚ) ≤ final_avg_perc_vect avg i ∧ m = i.val + 1 := by
  have hfilter : ∀ i : Fin n,
      (decide (cens_avg_vect avg i ≠ 0)) =
        (decide ((80:ℚ) ≤ final_avg_perc_vect avg i)) := by
    intro i
    by_cases h : final_avg_perc_vect avg i < 80
    · simp [cens_avg_vect, h, not_le.mpr h]
    · have h80 : (80:ℚ) ≤ final_avg_perc_vect avg i := not_lt.mp h
      have hne : final_avg_perc_vect avg i ≠ 0 := by
        intro h0
        rw [h0] at h80
        norm_num at h80
      simp [cens_avg_vect, h, hne, h80]
  have hfeq : (List.finRange n).filter (fun i => decide (cens_avg_vect avg i ≠ 0)) =
      (List.finRange n).filter (fun i => decide ((80:ℚ) ≤ final_avg_perc_vect avg i)) :=
    List.filter_congr (fun i _ => hfilter i)
  have heq : hub_list avg =
      ((List.finRange n).filter
        (fun i => decide ((80:ℚ) ≤ final_avg_perc_vect avg i))).map
        (fun i => i.val + 1) := by
    rw [hub_list, hfeq]
  refine ⟨heq, fun m => ?_⟩
  rw [heq]
  constructor
  · intro hm
    rcases List.mem_map.mp hm with ⟨i, hif, hmi⟩
    rcases List.mem_filter.mp hif with ⟨-, hdec⟩
    exact ⟨i, of_decide_eq_true hdec, hmi.symm⟩
  · rintro ⟨i, hi, rfl⟩
    exact List.mem_map.mpr
      ⟨i, List.mem_filter.mpr ⟨List.mem_finRange i, decide_eq_true hi⟩, rfl⟩

lemma rankOf_lt_rankOf {s : Finset ℕ} {a b : ℕ} (ha : a ∈ s) (hab : a < b) :
    rankOf s a < rankOf s b := by
  unfold rankOf
  have hsub : s.filter (fun y => y < a) ⊆ s.filter (fun y => y < b) := by
    intro y hy
    rcases Finset.mem_filter.mp hy with ⟨hys, hya⟩
    exact Finset.mem_filter.mpr ⟨hys, lt_trans hya hab⟩
  have hss : s.filter (fun y => y < a) ⊂ s.filter (fun y => y < b) :=
    (Finset.ssubset_iff_of_subset hsub).mpr
      ⟨a, Finset.mem_filter.mpr ⟨ha, hab⟩,
        fun hc => lt_irrefl a (Finset.mem_filter.mp hc).2⟩
  exact Nat.add_lt_add_right (Finset.card_lt_card hss) 1

lemma rankOf_injOn {s : Finset ℕ} :
    ∀ a ∈ s, ∀ b ∈ s, rankOf s a = rankOf s b → a = b := by
  intro a ha b hb hr
  rcases lt_trichotomy a b with h | h | h
  · exact absurd hr (Nat.ne_of_lt (rankOf_lt_rankOf ha h))
  · exact h
  · exact absurd hr.symm (Nat.ne_of_lt (rankOf_lt_rankOf hb h))

lemma Kc2_eq_relabel {n : ℕ} (W : Fin n → Fin n → ℚ) (ci : Fin n → ℕ) (v : Fin n) :
    Kc2 W ci v = ∑ c ∈ Finset.image ci Finset.univ,
      (∑ j ∈ Finset.univ.filter (fun j => ci j = c), W v j) ^ 2 := by
  have hA : ∀ c : ℕ,
      (∑ j ∈ Finset.univ.filter (fun j => W v j ≠ 0 ∧ uniqueInv ci j = c), W v j)
        = ∑ j ∈ Finset.univ.filter (fun j => uniqueInv ci j = c), W v j := by
    intro c
    have h1 : (Finset.univ.filter (fun j => uniqueInv ci j = c)).filter
        (fun j => W v j ≠ 0) =
        Finset.univ.filter (fun j : Fin n => W v j ≠ 0 ∧ uniqueInv ci j = c) := by
      rw [Finset.filter_filter]
      exact Finset.filter_congr (fun j _ => and_comm)
    rw [← h1]
    exact Finset.sum_filter_of_ne (fun x _ hx => hx)
  have hKc2 : Kc2 W ci v = ∑ c ∈ Finset.Icc 1 (maxCi ci),
      (∑ j ∈ Finset.univ.filter (fun j => uniqueInv ci j = c), W v j) ^ 2 := by
    unfold Kc2
    exact Finset.sum_congr rfl (fun c _ => by rw [hA c])
  have himg : Finset.image (uniqueInv ci) Finset.univ ⊆ Finset.Icc 1 (maxCi ci) := by
    intro r hr
    rcases Finset.mem_image.mp hr with ⟨j, -, rfl⟩
    exact Finset.mem_Icc.mpr ⟨Nat.le_add_left 1 _, Finset.le_sup (Finset.mem_univ j)⟩
  have hB : ∑ c ∈ Finset.Icc 1 (maxCi ci),
      (∑ j ∈ Finset.univ.filter (fun j => uniqueInv ci j = c), W v j) ^ 2
      = ∑ c ∈ Finset.image (uniqueInv ci) Finset.univ,
        (∑ j ∈ Finset.univ.filter (fun j => uniqueInv ci j = c), W v j) ^ 2 := by
    refine (Finset.sum_subset himg ?_).symm
    intro c _ hnc
    have hempty : Finset.univ.filter (fun j : Fin n => uniqueInv ci j = c) = ∅ := by
      refine Finset.filter_eq_empty_iff.mpr ?_
      intro j _ hj
      exact hnc (Finset.mem_image.mpr ⟨j, Finset.mem_univ j, hj⟩)
    rw [hempty, Finset.sum_empty]
    norm_num
  have himg2 : Finset.image (uniqueInv ci) Finset.univ =
      Finset.image (rankOf (Finset.image ci Finset.univ))
        (Finset.image ci Finset.univ) := by
    rw [Finset.image_image]
    rfl
  have hC : ∑ c ∈ Finset.image (rankOf (Finset.image ci Finset.univ))
        (Finset.image ci Finset.univ),
      (∑ j ∈ Finset.univ.filter (fun j => uniqueInv ci j = c), W v j) ^ 2
      = ∑ c ∈ Finset.image ci Finset.univ,
        (∑ j ∈ Finset.univ.filter
          (fun j => uniqueInv ci j = rankOf (Finset.image ci Finset.univ) c),
          W v j) ^ 2 :=
    Finset.sum_image (fun a ha b hb h => rankOf_injOn a ha b hb h)
  have hD : ∀ c ∈ Finset.image ci Finset.univ,
      (∑ j ∈ Finset.univ.filter
        (fun j => uniqueInv ci j = rankOf (Finset.image ci Finset.univ) c), W v j)
      = ∑ j ∈ Finset.univ.filter (fun j => ci j = c), W v j := by
    intro c hc
    congr 1
    refine Finset.filter_congr (fun j _ => ?_)
    constructor
    · intro h
      exact rankOf_injOn (ci j)
        (Finset.mem_image.mpr ⟨j, Finset.mem_univ j, rfl⟩) c hc h
    · intro h
      rw [uniqueInv, h]
  rw [hKc2, hB, himg2, hC]
  exact Finset.sum_congr rfl (fun c hc => by rw [hD c hc])

/-- C2: the hand-computed with-NaN participation coefficient of node v is
1 minus the sum over the communities of ci of the squared within-community
weight sums, divided by the squared total degree; a node whose row is all
zero (zero degree) hits 0/0 and yields NaN, and that NaN survives into the
persisted per-threshold censored percentile vector instead of being
zero-filled. -/
theorem c2_pc_with_nan {n : ℕ} (W : Fin n → Fin n → ℚ) (ci : Fin n → ℕ)
    (_hUpper : ∀ i j : Fin n, (j : ℕ) ≤ (i : ℕ) → W i j = 0) (v : Fin n) :
    (Ko W v ≠ 0 → PC_wnans W ci v =
      some (1 - (∑ c ∈ Finset.image ci Finset.univ,
        (∑ j ∈ Finset.univ.filter (fun j => ci j = c), W v j) ^ 2) /
          (Ko W v) ^ 2)) ∧
    ((∀ j, W v j = 0) → PC_wnans W ci v = none ∧
      cens_PC_perc_wnan W ci v = none) := by
  constructor
  · intro hKo
    rw [PC_wnans, if_neg (fun h => hKo h.1), Kc2_eq_relabel]
  · intro hzero
    have hKo : Ko W v = 0 := by
      rw [Ko]
      exact Finset.sum_eq_zero (fun j _ => hzero j)
    have hKc2 : Kc2 W ci v = 0 := by
      rw [Kc2]
      refine Finset.sum_eq_zero (fun c _ => ?_)
      rw [Finset.sum_eq_zero (fun j _ => hzero j)]
      norm_num
    have hnan : PC_wnans W ci v = none := by
      rw [PC_wnans, if_pos ⟨hKo, hKc2⟩]
    exact ⟨hnan, by rw [cens_PC_perc_wnan, if_pos hnan]⟩

/-- Witness for c2_pc_with_nan: a 2-node strict upper-triangular matrix with
the single edge 0-1 of weight 1 exercises the formula branch, and the all-zero
matrix exercises the NaN branch. -/
theorem c2_pc_with_nan_witness :
    (∀ i j : Fin 2, (j : ℕ) ≤ (i : ℕ) →
      (fun a b : Fin 2 => if a.val = 0 ∧ b.val = 1 then (1:ℚ) else 0) i j = 0) ∧
    Ko (fun a b : Fin 2 => if a.val = 0 ∧ b.val = 1 then (1:ℚ) else 0) 0 ≠ 0 ∧
    PC_wnans (fun a b : Fin 2 => if a.val = 0 ∧ b.val = 1 then (1:ℚ) else 0)
      (fun _ => 0) 0 =
      some (1 - (∑ c ∈ Finset.image (fun _ : Fin 2 => 0) Finset.univ,
        (∑ j ∈ Finset.univ.filter (fun j : Fin 2 => (fun _ : Fin 2 => 0) j = c),
          (fun a b : Fin 2 => if a.val = 0 ∧ b.val = 1 then (1:ℚ) else 0) 0 j) ^ 2) /
          (Ko (fun a b : Fin 2 => if a.val = 0 ∧ b.val = 1 then (1:ℚ) else 0) 0) ^ 2) ∧
    PC_wnans (fun _ _ : Fin 2 => (0:ℚ)) (fun _ => 0) 0 = none ∧
    cens_PC_perc_wnan (fun _ _ : Fin 2 => (0:ℚ)) (fun _ => 0) 0 = none := by
  have hUpper : ∀ i j : Fin 2, (j : ℕ) ≤ (i : ℕ) →
      (fun a b : Fin 2 => if a.val = 0 ∧ b.val = 1 then (1:ℚ) else 0) i j = 0 := by
    decide
  have hKo : Ko (fun a b : Fin 2 => if a.val = 0 ∧ b.val = 1 then (1:ℚ) else 0) 0 ≠ 0 := by
    rw [Ko, Fin.sum_univ_two]
    norm_num
  refine ⟨hUpper, hKo, ?_, ?_, ?_⟩
  · exact (c2_pc_with_nan _ (fun _ => 0) hUpper 0).1 hKo
  · exact ((c2_pc_with_nan (fun _ _ : Fin 2 => (0:ℚ)) (fun _ => 0)
      (fun _ _ _ => rfl) 0).2 (fun _ => rfl)).1
  · exact ((c2_pc_with_nan (fun _ _ : Fin 2 => (0:ℚ)) (fun _ => 0)
      (fun _ _ _ => rfl) 0).2 (fun _ => rfl)).2

/-- C3: the persisted per-threshold censored percentile vector is NaN at
every node whose degree is strictly below the 25th percentile of the
threshold's degree distribution, and at every node whose with-NaN
participation coefficient was already NaN; in particular degree censoring
never resurrects a NaN value. -/
theorem c3_low_degree_censoring {n : ℕ} (W : Fin n → Fin n → ℚ)
    (ci : Fin n → ℕ) (v : Fin n)
    (h : (degrees_und W v : ℚ) < lowCut W ∨ PC_wnans W ci v = none) :
    cens_PC_perc_wnan W ci v = none := by
  rcases h with hdeg | hnan
  · have hmult : deg_mult W v = 0 := by
      rw [deg_mult, if_pos hdeg]
    have hcens : deg_cens_PC_percs W ci v = 0 := by
      rw [deg_cens_PC_percs, hmult, mul_zero]
    rw [cens_PC_perc_wnan]
    by_cases hn : PC_wnans W ci v = none
    · rw [if_pos hn]
    · rw [if_neg hn, if_pos hcens]
  · rw [cens_PC_perc_wnan, if_pos hnan]

/-- Witness for c3_low_degree_censoring: on the 1-node zero matrix the node
has an all-zero row, so its with-NaN coefficient is NaN and the persisted
entry is NaN. -/
theorem c3_low_degree_censoring_witness :
    PC_wnans (fun _ _ : Fin 1 => (0:ℚ)) (fun _ => 0) 0 = none ∧
    cens_PC_perc_wnan (fun _ _ : Fin 1 => (0:ℚ)) (fun _ => 0) 0 = none := by
  have hnan : PC_wnans (fun _ _ : Fin 1 => (0:ℚ)) (fun _ => 0) 0 = none := by
    have hKo : Ko (fun _ _ : Fin 1 => (0:ℚ)) 0 = 0 := by
      rw [Ko]
      exact Finset.sum_eq_zero (fun j _ => rfl)
    have hKc2 : Kc2 (fun _ _ : Fin 1 => (0:ℚ)) (fun _ => 0) 0 = 0 := by
      rw [Kc2]
      refine Finset.sum_eq_zero (fun c _ => ?_)
      rw [Finset.sum_eq_zero (fun j _ => rfl)]
      norm_num
    rw [PC_wnans, if_pos ⟨hKo, hKc2⟩]
  exact ⟨hnan,
    c3_low_degree_censoring (fun _ _ : Fin 1 => (0:ℚ)) (fun _ => 0) 0 (Or.inr hnan)⟩

lemma sum_filterMap_eq_sum_getD {α : Type} (l : List α) (f : α → Option ℚ) :
    (l.filterMap f).sum = (l.map (fun a => (f a).getD 0)).sum := by
  induction l with
  | nil => rfl
  | cons a l ih =>
    cases hfa : f a with
    | none => simp [List.filterMap_cons, hfa, ih]
    | some q => simp [List.filterMap_cons, hfa, ih]

lemma length_filterMap_eq_countP {α : Type} (l : List α) (f : α → Option ℚ) :
    (l.filterMap f).length = l.countP (fun a => (f a).isSome) := by
  induction l with
  | nil => rfl
  | cons a l ih =>
    cases hfa : f a with
    | none => simp [List.filterMap_cons, hfa, List.countP_cons, ih]
    | some q => simp [List.filterMap_cons, hfa, List.countP_cons, ih]

lemma countP_eq_sum_map_ite {α : Type} (l : List α) (p : α → Bool) :
    (l.countP p : ℕ) = (l.map (fun a => if p a then (1:ℕ) else 0)).sum := by
  induction l with
  | nil => rfl
  | cons a l ih =>
    by_cases hp : p a
    · simp [List.countP_cons, hp, ih, Nat.add_comm]
    · simp [List.countP_cons, hp, ih]

/-- C4: the final averaged vector entry of a node is the mean of its non-NaN
per-threshold censored percentile scores, and a node that is NaN at all 12
thresholds receives the value exactly 0, not NaN. -/
theorem c4_nanmean_average {n : ℕ} (vs : Fin 12 → Fin n → Option ℚ) (v : Fin n) :
    ((∃ t, vs t v ≠ none) → avg_PC_perc vs v =
      (∑ t ∈ Finset.univ.filter (fun t : Fin 12 => (vs t v).isSome), (vs t v).getD 0) /
        ((Finset.univ.filter (fun t : Fin 12 => (vs t v).isSome)).card : ℚ)) ∧
    ((∀ t, vs t v = none) → avg_PC_perc vs v = 0) := by
  constructor
  · intro hex
    rcases hex with ⟨t0, ht0⟩
    have ht0s : ((vs t0 v).isSome : Prop) := by
      cases hvt : vs t0 v with
      | none => exact absurd hvt ht0
      | some q => simp
    have hsum : ((List.finRange 12).filterMap (fun t => vs t v)).sum =
        ∑ t ∈ Finset.univ.filter (fun t : Fin 12 => (vs t v).isSome),
          (vs t v).getD 0 := by
      rw [sum_filterMap_eq_sum_getD, ← Fin.sum_univ_def]
      rw [← Finset.sum_filter_add_sum_filter_not Finset.univ
        (fun t : Fin 12 => (vs t v).isSome)]
      have hz : ∑ t ∈ Finset.univ.filter
          (fun t : Fin 12 => ¬ ((vs t v).isSome : Prop)), (vs t v).getD 0 = 0 := by
        refine Finset.sum_eq_zero (fun t ht => ?_)
        rcases Finset.mem_filter.mp ht with ⟨-, hts⟩
        cases hvt : vs t v with
        | none => rfl
        | some q => exact absurd (by simp [hvt]) hts
      rw [hz, add_zero]
    have hlen : ((List.finRange 12).filterMap (fun t => vs t v)).length =
        (Finset.univ.filter (fun t : Fin 12 => (vs t v).isSome)).card := by
      rw [length_filterMap_eq_countP, countP_eq_sum_map_ite, Finset.card_filter,
        Fin.sum_univ_def]
    have hlenne : ((List.finRange 12).filterMap (fun t => vs t v)).length ≠ 0 := by
      rw [length_filterMap_eq_countP]
      have : t0 ∈ List.finRange 12 := List.mem_finRange t0
      intro h0
      have hfalse := List.countP_eq_zero.mp h0 t0 this
      rw [ht0s] at hfalse
      simp at hfalse
    rw [avg_PC_perc, nanmeanAt]
    simp only [if_neg hlenne]
    rw [Option.getD_some, hsum, hlen]
  · intro hall
    have hnil : (List.finRange 12).filterMap (fun t => vs t v) = [] := by
      refine List.filterMap_eq_nil_iff.mpr (fun t _ => hall t)
    rw [avg_PC_perc, nanmeanAt]
    simp only [hnil]
    rfl

/-- Witness for c4_nanmean_average: a stack where node 0 of 2 carries the
value 10 at threshold 0 only, and node 1 is NaN everywhere; the averages are
10 and 0 respectively. -/
theorem c4_nanmean_average_witness :
    avg_PC_perc
      (fun t (v : Fin 2) => if t.val = 0 ∧ v.val = 0 then some (10:ℚ) else none) 0 =
      (∑ t ∈ Finset.univ.filter
        (fun t : Fin 12 => ((fun t (v : Fin 2) =>
          if t.val = 0 ∧ v.val = 0 then some (10:ℚ) else none) t 0).isSome),
        ((fun t (v : Fin 2) =>
          if t.val = 0 ∧ v.val = 0 then some (10:ℚ) else none) t 0).getD 0) /
        ((Finset.univ.filter
          (fun t : Fin 12 => ((fun t (v : Fin 2) =>
            if t.val = 0 ∧ v.val = 0 then some (10:ℚ) else none) t 0).isSome)).card : ℚ) ∧
    avg_PC_perc
      (fun t (v : Fin 2) => if t.val = 0 ∧ v.val = 0 then some (10:ℚ) else none) 1 = 0 := by
  constructor
  · exact (c4_nanmean_average _ 0).1 ⟨0, by simp⟩
  · exact (c4_nanmean_average _ 1).2 (fun t => by simp)

lemma cov_comm {m : ℕ} (x y : Fin m → ℝ) : cov x y = cov y x := by
  unfold cov
  congr 1
  exact Finset.sum_congr rfl (fun k _ => mul_comm _ _)

lemma corrcoefEntry_comm {m : ℕ} (x y : Fin m → ℝ) :
    corrcoefEntry x y = corrcoefEntry y x := by
  unfold corrcoefEntry
  by_cases h : cov x x = 0 ∨ cov y y = 0
  · rw [if_pos h, if_pos (Or.symm h)]
  · rw [if_neg h, if_neg (fun hc => h (Or.symm hc)), cov_comm x y,
      mul_comm (Real.sqrt (cov x x)) (Real.sqrt (cov y y))]

lemma cov_eq_zero_of_const {m : ℕ} {x : Fin m → ℝ} (y : Fin m → ℝ)
    (hconst : ∀ k l, x k = x l) : cov x y = 0 := by
  unfold cov
  have hz : ∀ k : Fin m, x k - rowMean x = 0 := by
    intro k
    have hmean : rowMean x = x k := by
      unfold rowMean
      have hsum : ∑ l, x l = (m : ℝ) * x k := by
        rw [Finset.sum_congr rfl (fun l _ => hconst l k)]
        rw [Finset.sum_const, Finset.card_univ, Fintype.card_fin, nsmul_eq_mul]
      rw [hsum]
      have hm : (m : ℝ) ≠ 0 := by
        have : 0 < m := Fin.pos k
        positivity
      field_simp
    rw [hmean, sub_self]
  rw [Finset.sum_eq_zero (fun k _ => by rw [hz k, zero_mul]), zero_div]

lemma foldl_optAdd_none (l : List (Option ℚ)) : l.foldl optAdd none = none := by
  induction l with
  | nil => rfl
  | cons x l ih =>
    have h : optAdd none x = none := by cases x <;> rfl
    rw [List.foldl_cons, h, ih]

lemma foldl_optAdd_eq_none_iff (l : List (Option ℚ)) (q : ℚ) :
    l.foldl optAdd (some q) = none ↔ ∃ x ∈ l, x = none := by
  induction l generalizing q with
  | nil => simp
  | cons x l ih =>
    cases x with
    | none =>
      rw [List.foldl_cons]
      have h : optAdd (some q) none = none := rfl
      rw [h, foldl_optAdd_none]
      simp
    | some b =>
      rw [List.foldl_cons]
      have h : optAdd (some q) (some b) = some (q + b) := rfl
      rw [h, ih]
      simp

lemma npSumMat_eq_none_iff {N : ℕ} (M : Fin N → Fin N → Option ℚ) :
    npSumMat M = none ↔ ∃ i j, M i j = none := by
  rw [npSumMat, foldl_optAdd_eq_none_iff]
  constructor
  · rintro ⟨x, hx, rfl⟩
    rcases List.mem_flatten.mp hx with ⟨row, hrow, hxrow⟩
    rcases List.mem_map.mp hrow with ⟨i, -, rfl⟩
    rcases List.mem_map.mp hxrow with ⟨j, -, hji⟩
    exact ⟨i, j, hji⟩
  · rintro ⟨i, j, hij⟩
    refine ⟨M i j, ?_, hij⟩
    refine List.mem_flatten.mpr ⟨(List.finRange N).map (M i), ?_, ?_⟩
    · exact List.mem_map.mpr ⟨i, List.mem_finRange i, rfl⟩
    · exact List.mem_map.mpr ⟨j, List.mem_finRange j, rfl⟩

/-- C7: the Community Partitioner's per-threshold NaN check aborts the
subject fatally (sys.exit, no retry) exactly when the thresholded matrix
contains a NaN entry, and proceeds otherwise. -/
theorem c7_partitioner_nan_abort {N : ℕ} (M : Fin N → Fin N → Option ℚ) :
    ((∃ i j, M i j = none) → runInfomapThreshStep M = Except.error nanErrMsg) ∧
    ((∀ i j, M i j ≠ none) → runInfomapThreshStep M = Except.ok ()) := by
  constructor
  · intro hex
    have h : npSumMat M = none := (npSumMat_eq_none_iff M).mpr hex
    rw [runInfomapThreshStep, h]
    rfl
  · intro hall
    have h : npSumMat M ≠ none := by
      intro hc
      rcases (npSumMat_eq_none_iff M).mp hc with ⟨i, j, hij⟩
      exact hall i j hij
    rw [runInfomapThreshStep, if_neg (by
      cases hn : npSumMat M with
      | none => exact absurd hn h
      | some q => simp)]

/-- Witness for c7_partitioner_nan_abort: the 1-entry NaN matrix aborts, the
1-entry finite matrix proceeds. -/
theorem c7_partitioner_nan_abort_witness :
    runInfomapThreshStep (fun _ _ : Fin 1 => (none : Option ℚ)) =
      Except.error nanErrMsg ∧
    runInfomapThreshStep (fun _ _ : Fin 1 => (some (1:ℚ))) = Except.ok () := by
  constructor
  · exact (c7_partitioner_nan_abort _).1 ⟨0, 0, rfl⟩
  · exact (c7_partitioner_nan_abort _).2 (fun i j => by simp)

/-- C5: make_zmat has diagonal exactly 1, every off-diagonal entry (for rows
of nonzero variance) is the inverse hyperbolic tangent of the Pearson
correlation of the two rows, and the matrix is symmetric. -/
theorem c5_make_zmat_shape {n m : ℕ} (ts : Fin n → Fin m → ℝ) (i j : Fin n)
    (hij : i ≠ j) (hvi : cov (ts i) (ts i) ≠ 0) (hvj : cov (ts j) (ts j) ≠ 0) :
    make_zmat ts i i = some 1 ∧
    make_zmat ts i j = some (artanh (cov (ts i) (ts j) /
      (Real.sqrt (cov (ts i) (ts i)) * Real.sqrt (cov (ts j) (ts j))))) ∧
    (∀ a b, make_zmat ts a b = make_zmat ts b a) := by
  refine ⟨by rw [make_zmat, if_pos rfl], ?_, ?_⟩
  · rw [make_zmat, if_neg hij, corrcoefEntry,
      if_neg (fun h => h.elim hvi hvj)]
    rfl
  · intro a b
    by_cases hab : a = b
    · rw [hab]
    · rw [make_zmat, make_zmat, if_neg hab, if_neg (Ne.symm hab),
        corrcoefEntry_comm]

/-- Witness for c5_make_zmat_shape: the 2x2 timeseries with rows (0,1) and
(1,0); both rows have variance 1/2. -/
theorem c5_make_zmat_shape_witness :
    cov ((fun i k : Fin 2 => if i = k then (0:ℝ) else 1) 0)
        ((fun i k : Fin 2 => if i = k then (0:ℝ) else 1) 0) ≠ 0 ∧
    make_zmat (fun i k : Fin 2 => if i = k then (0:ℝ) else 1) 0 0 = some 1 ∧
    make_zmat (fun i k : Fin 2 => if i = k then (0:ℝ) else 1) 0 1 =
      some (artanh
        (cov ((fun i k : Fin 2 => if i = k then (0:ℝ) else 1) 0)
             ((fun i k : Fin 2 => if i = k then (0:ℝ) else 1) 1) /
          (Real.sqrt (cov ((fun i k : Fin 2 => if i = k then (0:ℝ) else 1) 0)
              ((fun i k : Fin 2 => if i = k then (0:ℝ) else 1) 0)) *
            Real.sqrt (cov ((fun i k : Fin 2 => if i = k then (0:ℝ) else 1) 1)
              ((fun i k : Fin 2 => if i = k then (0:ℝ) else 1) 1))))) := by
  have h0 : ((fun i k : Fin 2 => if i = k then (0:ℝ) else 1) 0) =
      (fun k : Fin 2 => if (0:Fin 2) = k then (0:ℝ) else 1) := rfl
  have hm0 : rowMean ((fun i k : Fin 2 => if i = k then (0:ℝ) else 1) 0) = 1/2 := by
    rw [h0, rowMean, Fin.sum_univ_two]
    norm_num
  have hv0 : cov ((fun i k : Fin 2 => if i = k then (0:ℝ) else 1) 0)
      ((fun i k : Fin 2 => if i = k then (0:ℝ) else 1) 0) = 1/2 := by
    rw [cov, hm0, h0, Fin.sum_univ_two]
    norm_num
  have hm1 : rowMean ((fun i k : Fin 2 => if i = k then (0:ℝ) else 1) 1) = 1/2 := by
    rw [rowMean, Fin.sum_univ_two]
    norm_num
  have hv1 : cov ((fun i k : Fin 2 => if i = k then (0:ℝ) else 1) 1)
      ((fun i k : Fin 2 => if i = k then (0:ℝ) else 1) 1) = 1/2 := by
    rw [cov, hm1, Fin.sum_univ_two]
    norm_num
  have hne0 : cov ((fun i k : Fin 2 => if i = k then (0:ℝ) else 1) 0)
      ((fun i k : Fin 2 => if i = k then (0:ℝ) else 1) 0) ≠ 0 := by
    rw [hv0]
    norm_num
  have hne1 : cov ((fun i k : Fin 2 => if i = k then (0:ℝ) else 1) 1)
      ((fun i k : Fin 2 => if i = k then (0:ℝ) else 1) 1) ≠ 0 := by
    rw [hv1]
    norm_num
  obtain ⟨hd, hoff, -⟩ := c5_make_zmat_shape
    (fun i k : Fin 2 => if i = k then (0:ℝ) else 1) 0 1 (by decide) hne0 hne1
  exact ⟨hne0, hd, hoff⟩

/-- C6 counterexample: on a timeseries whose first row is constant, the
Connectivity Matrix Builder does not fail; it returns a matrix carrying NaN
in every off-diagonal entry of that row (here entry (0,1) and (1,0)),
silently propagating NaN onward. -/
theorem c6_builder_returns_nan_counterexample :
    make_zmat (fun i k : Fin 2 => if i = 0 then (1:ℝ) else (k.val : ℝ)) 0 1 =
      none ∧
    make_zmat (fun i k : Fin 2 => if i = 0 then (1:ℝ) else (k.val : ℝ)) 1 0 =
      none := by
  have hconst : ∀ k l : Fin 2,
      (fun i k : Fin 2 => if i = 0 then (1:ℝ) else (k.val : ℝ)) 0 k =
      (fun i k : Fin 2 => if i = 0 then (1:ℝ) else (k.val : ℝ)) 0 l := by
    intro k l
    simp
  have hcov : cov ((fun i k : Fin 2 => if i = 0 then (1:ℝ) else (k.val : ℝ)) 0)
      ((fun i k : Fin 2 => if i = 0 then (1:ℝ) else (k.val : ℝ)) 0) = 0 :=
    cov_eq_zero_of_const _ hconst
  constructor
  · rw [make_zmat, if_neg (by decide), corrcoefEntry, if_pos (Or.inl hcov)]
    rfl
  · rw [make_zmat, if_neg (by decide), corrcoefEntry, if_pos (Or.inr hcov)]
    rfl

/-- C6 amended: the Builder itself produces NaN entries for a constant row
(it does not raise a data-quality error); the failure surfaces downstream,
where the Partitioner's per-threshold NaN check aborts the subject fatally
on any matrix containing a NaN. -/
theorem c6_constant_row_nan_flow {n m : ℕ} (ts : Fin n → Fin m → ℝ) (i : Fin n)
    (hconst : ∀ k l, ts i k = ts i l) :
    (∀ j, j ≠ i → make_zmat ts i j = none) ∧
    (∀ (N : ℕ) (M : Fin N → Fin N → Option ℚ) (a b : Fin N), M a b = none →
      runInfomapThreshStep M = Except.error nanErrMsg) := by
  constructor
  · intro j hj
    rw [make_zmat, if_neg (Ne.symm hj), corrcoefEntry,
      if_pos (Or.inl (cov_eq_zero_of_const _ hconst))]
    rfl
  · intro N M a b hab
    have h : npSumMat M = none := (npSumMat_eq_none_iff M).mpr ⟨a, b, hab⟩
    rw [runInfomapThreshStep, h]
    rfl

/-- Witness for c6_constant_row_nan_flow: the constant-row timeseries of the
counterexample, and the 1-entry NaN matrix for the downstream check. -/
theorem c6_constant_row_nan_flow_witness :
    make_zmat (fun i k : Fin 2 => if i = 0 then (1:ℝ) else (k.val : ℝ)) 0 1 =
      none ∧
    runInfomapThreshStep (fun _ _ : Fin 1 => (none : Option ℚ)) =
      Except.error nanErrMsg := by
  have hconst : ∀ k l : Fin 2,
      (fun i k : Fin 2 => if i = 0 then (1:ℝ) else (k.val : ℝ)) 0 k =
      (fun i k : Fin 2 => if i = 0 then (1:ℝ) else (k.val : ℝ)) 0 l := by
    intro k l
    simp
  obtain ⟨h1, h2⟩ := c6_constant_row_nan_flow
    (fun i k : Fin 2 => if i = 0 then (1:ℝ) else (k.val : ℝ)) 0 hconst
  exact ⟨h1 1 (by decide), h2 1 (fun _ _ : Fin 1 => (none : Option ℚ)) 0 0 rfl⟩

/-- C8: the persisted affiliation vector is ordered by parcel index
ascending (the parsed tuples are re-sorted by node id, keeping exactly the
original multiset of pairs), and writing then reading the vector back yields
exactly the sorted labels. -/
theorem c8_affiliation_sorted_roundtrip (clu : List (ℕ × ℕ)) :
    ((s_tups clu).map Prod.fst).Sorted (fun a b => a ≤ b) ∧
    (s_tups clu).Perm clu ∧
    loadAffVect (writeAffVect clu) = (s_tups clu).map Prod.snd := by
  haveI htot : IsTotal (ℕ × ℕ) (fun a b => a.1 ≤ b.1) :=
    ⟨fun a b => Nat.le_total a.1 b.1⟩
  haveI htrans : IsTrans (ℕ × ℕ) (fun a b => a.1 ≤ b.1) :=
    ⟨fun _ _ _ hab hbc => Nat.le_trans hab hbc⟩
  refine ⟨?_, List.perm_insertionSort _ clu, rfl⟩
  have hsorted : (s_tups clu).Sorted (fun a b => a.1 ≤ b.1) :=
    List.sorted_insertionSort _ clu
  exact List.pairwise_map.mpr hsorted

lemma addFile_apply (counts : ℕ → ℕ) (file : List ℕ) (p : ℕ) :
    addFile counts file p = counts p + file.count p := by
  induction file generalizing counts with
  | nil => simp [addFile]
  | cons h t ih =>
    have h1 : addFile counts (h :: t) p =
        addFile (Function.update counts h (counts h + 1)) t p := rfl
    rw [h1, ih]
    by_cases hp : h = p
    · subst hp
      rw [Function.update_same, List.count_cons_self]
      omega
    · rw [Function.update_noteq (Ne.symm hp),
        List.count_cons_of_ne (fun hc => hp hc.symm)]

lemma hub_counts_apply (files : List (List ℕ)) (p : ℕ) :
    hub_counts files p = (files.map (fun f => f.count p)).sum := by
  have haux : ∀ (init : ℕ → ℕ),
      (files.foldl addFile init) p = init p + (files.map (fun f => f.count p)).sum := by
    induction files with
    | nil => intro init; simp
    | cons f fs ih =>
      intro init
      rw [List.foldl_cons, ih (addFile init f), addFile_apply, List.map_cons,
        List.sum_cons]
      omega
  rw [hub_counts, haux initCounts]
  simp [initCounts]

lemma count_eq_ite_of_nodup {f : List ℕ} (hnd : f.Nodup) (p : ℕ) :
    f.count p = if p ∈ f then 1 else 0 := by
  by_cases hp : p ∈ f
  · rw [if_pos hp]
    exact List.count_eq_one_of_mem hnd hp
  · rw [if_neg hp]
    exact List.count_eq_zero_of_not_mem hp

/-- C9: the density aggregator outputs a 333-entry vector ordered by parcel
number, whose entry for parcel p counts how many input hub-index files
contain p (parcels in no file count 0). -/
theorem c9_density_aggregation (files : List (List ℕ))
    (hnd : ∀ f ∈ files, f.Nodup)
    (_hrange : ∀ f ∈ files, ∀ x ∈ f, 1 ≤ x ∧ x ≤ 333) :
    (the_vect files).length = 333 ∧
    ∀ p : ℕ, 1 ≤ p → p ≤ 333 →
      (the_vect files).getD (p - 1) 0 = files.countP (fun f => decide (p ∈ f)) := by
  constructor
  · rw [the_vect, List.length_map, List.length_range']
  · intro p hp1 hp333
    have hlenr : p - 1 < (List.range' 1 333).length := by
      rw [List.length_range']
      omega
    rw [the_vect, List.getD_eq_getElem?_getD, List.getElem?_map,
      List.getElem?_eq_getElem hlenr, List.getElem_range']
    have hidx : 1 + 1 * (p - 1) = p := by omega
    rw [hidx]
    have hgd : (Option.map (hub_counts files) (some p)).getD 0 =
        hub_counts files p := rfl
    rw [hgd, hub_counts_apply]
    have hmap : files.map (fun f => f.count p) =
        files.map (fun f => if p ∈ f then 1 else 0) := by
      refine List.map_congr_left (fun f hf => ?_)
      exact count_eq_ite_of_nodup (hnd f hf) p
    rw [hmap]
    rw [countP_eq_sum_map_ite files (fun f => decide (p ∈ f))]
    congr 1
    refine List.map_congr_left (fun f _ => ?_)
    by_cases hpf : p ∈ f
    · simp [hpf]
    · simp [hpf]

/-- Witness for c9_density_aggregation: three subjects with hub sets
(5, 10), (5) and (); parcel 5 is counted twice, parcel 10 once, parcel 1
zero times, and the vector has 333 entries. -/
theorem c9_density_aggregation_witness :
    (the_vect [[5, 10], [5], []]).length = 333 ∧
    (the_vect [[5, 10], [5], []]).getD 4 0 = 2 ∧
    (the_vect [[5, 10], [5], []]).getD 9 0 = 1 ∧
    (the_vect [[5, 10], [5], []]).getD 0 0 = 0 := by
  have hnd : ∀ f ∈ [[5, 10], [5], ([] : List ℕ)], f.Nodup := by decide
  have hrange : ∀ f ∈ [[5, 10], [5], ([] : List ℕ)], ∀ x ∈ f, 1 ≤ x ∧ x ≤ 333 := by
    decide
  obtain ⟨hlen, hcount⟩ := c9_density_aggregation [[5, 10], [5], []] hnd hrange
  refine ⟨hlen, ?_, ?_, ?_⟩
  · rw [show (4:ℕ) = 5 - 1 from rfl, hcount 5 (by decide) (by decide)]
    decide
  · rw [show (9:ℕ) = 10 - 1 from rfl, hcount 10 (by decide) (by decide)]
    decide
  · rw [show (0:ℕ) = 1 - 1 from rfl, hcount 1 (by decide) (by decide)]
    decide

/-- C10 counterexample: a hub row carrying a second off-diagonal value
exactly 1.0 inside the same network list as the self-correlation is NOT
aborted: only the first 1.0 of the auditory list is removed (a 1.0 remains
in the erased list), corr_removed stays 1, and the check passes. -/
theorem c10_same_list_counterexample :
    corr_removed twoOnesRow = 1 ∧
    create_profiles_check twoOnesRow = Except.ok (removedConns twoOnesRow) ∧
    (1:ℚ) ∈ ((net_conns twoOnesRow).getD 0 []).erase 1 := by
  refine ⟨by decide, ?_, by decide⟩
  rw [create_profiles_check, if_pos (by decide)]

lemma corr_removed_eq_countP (conns : ℕ → ℚ) :
    corr_removed conns =
      networks.countP (fun net => decide (∃ i ∈ net, conns i = 1)) := by
  rw [corr_removed, net_conns, List.countP_map]
  refine List.countP_congr (fun net _ => ?_)
  constructor
  · intro h
    have hmem : (1:ℚ) ∈ net.map conns := of_decide_eq_true h
    rcases List.mem_map.mp hmem with ⟨i, hi, hci⟩
    exact decide_eq_true ⟨i, hi, hci⟩
  · intro h
    rcases of_decide_eq_true h with ⟨i, hi, hci⟩
    exact decide_eq_true (List.mem_map.mpr ⟨i, hi, hci⟩)

/-- C10 amended: exactly one element equal to 1.0 is removed per network
list containing one (the first occurrence, via list.remove), and the run
aborts iff the number of the 13 network lists containing the value 1.0
differs from one; a duplicate 1.0 inside the same list as the
self-correlation is neither removed nor detected, while a 1.0 in a different
list, or no 1.0 at all, aborts the whole run. -/
theorem c10_self_corr_removal (conns : ℕ → ℚ) :
    (create_profiles_check conns = Except.error selfCorrErrMsg ↔
      networks.countP (fun net => decide (∃ i ∈ net, conns i = 1)) ≠ 1) ∧
    (networks.countP (fun net => decide (∃ i ∈ net, conns i = 1)) = 1 →
      create_profiles_check conns = Except.ok (networks.map (fun net =>
        if (1:ℚ) ∈ net.map conns then (net.map conns).erase 1
        else net.map conns))) := by
  have hmapmap : removedConns conns = networks.map (fun net =>
      if (1:ℚ) ∈ net.map conns then (net.map conns).erase 1
      else net.map conns) := by
    rw [removedConns, net_conns, List.map_map]
    rfl
  constructor
  · rw [← corr_removed_eq_countP]
    constructor
    · intro herr hone
      rw [create_profiles_check, if_pos hone] at herr
      exact Except.noConfusion herr
    · intro hne
      rw [create_profiles_check, if_neg hne]
  · intro hone
    rw [← corr_removed_eq_countP] at hone
    rw [create_profiles_check, if_pos hone, hmapmap]

/-- Witness for c10_self_corr_removal: a row whose only 1.0 sits at index 9
(auditory network); exactly one list contains 1.0 and the check passes. -/
theorem c10_self_corr_removal_witness :
    networks.countP (fun net =>
      decide (∃ i ∈ net, (fun i : ℕ => if i = 9 then (1:ℚ) else 0) i = 1)) = 1 ∧
    create_profiles_check (fun i : ℕ => if i = 9 then (1:ℚ) else 0) =
      Except.ok (networks.map (fun net =>
        if (1:ℚ) ∈ net.map (fun i : ℕ => if i = 9 then (1:ℚ) else 0) then
          (net.map (fun i : ℕ => if i = 9 then (1:ℚ) else 0)).erase 1
        else net.map (fun i : ℕ => if i = 9 then (1:ℚ) else 0))) := by
  have hone : networks.countP (fun net =>
      decide (∃ i ∈ net, (fun i : ℕ => if i = 9 then (1:ℚ) else 0) i = 1)) = 1 := by
    decide
  exact ⟨hone, (c10_self_corr_removal (fun i : ℕ => if i = 9 then (1:ℚ) else 0)).2 hone⟩

end DemeterHubs
